import Mathlib

/-!
Verification of the seispy plotting core (`seispy/plot.py`).

Two functions carry all of the algorithmic content of the repository and are
embedded here:

* `insert_zeros (trace, tt)` — the zero-crossing inserter.  Amplitudes are
  modelled as exact rationals (`ℚ`); numpy's float arithmetic on the inputs the
  claims touch is exact, and the algorithm itself is pure array manipulation.
* `wiggle_input_check (data, tt, xx, sf, verbose)` — the input normalizer.
  Modelled over `ℝ` because `np.std` takes a square root.  Python's dynamic
  argument types are modelled by `PyObj` (a numpy 1D array, a numpy 2D array,
  or some other object), and raised exceptions by `Except PyErr`.
-/

namespace Seispy

/-- `np.signbit` on an exact value: true exactly on negatives (there is no
`-0.0` in `ℚ`). -/
def signbit (x : ℚ) : Bool := x < 0

/-- `np.arange n` as a rational list, the default sample axis of
`insert_zeros` when `tt is None`. -/
def arangeQ (n : ℕ) : List ℚ := (List.range n).map (fun i : ℕ => (i : ℚ))

/-- `zc_idx = np.where(np.diff(np.signbit(trace)))[0]` — `np.diff` on a boolean
array is elementwise `not_equal` of consecutive entries, so this is the list of
indices `i` with `signbit trace[i] ≠ signbit trace[i+1]`, in increasing
order. -/
def zc_idx (trace : List ℚ) : List ℕ :=
  (List.range (trace.length - 1)).filter
    (fun i => signbit (trace.getD i 0) != signbit (trace.getD (i + 1) 0))

/-- The interpolated crossing coordinates (`plot.py` lines 20–25):
`x1 = tt[zc_idx]`, `x2 = tt[zc_idx+1]`, `y1 = trace[zc_idx]`,
`y2 = trace[zc_idx+1]`, `a = (y2-y1)/(x2-x1)`, `tt_zero = x1 - y1/a`,
computed elementwise over the crossing indices. -/
def tt_zero (trace tt : List ℚ) : List ℚ :=
  (zc_idx trace).map (fun i =>
    let x1 := tt.getD i 0
    let x2 := tt.getD (i + 1) 0
    let y1 := trace.getD i 0
    let y2 := trace.getD (i + 1) 0
    let a := (y2 - y1) / (x2 - x1)
    x1 - y1 / a)

/-- Worker for `npSplit`: `xs` is the part of the original array that starts
at absolute position `off`, so the cut at absolute position `i` happens at
relative position `i - off` of the remainder. -/
def npSplitFrom (xs : List α) (off : ℕ) : List ℕ → List (List α)
  | [] => [xs]
  | i :: rest => xs.take (i - off) :: npSplitFrom (xs.drop (i - off)) i rest

/-- `np.split xs idxs`: cut `xs` at the (increasing) absolute positions
`idxs`, producing `idxs.length + 1` contiguous pieces
`xs[0:i₁], xs[i₁:i₂], …, xs[iₖ:]`. -/
def npSplit (xs : List α) (idxs : List ℕ) : List (List α) :=
  npSplitFrom xs 0 idxs

/-- `insert_zeros(trace, tt=None)` from `plot.py`.  The final `for` loop
(`for i in range(len(tt_zero)): ... hstack((acc, [ins], split[i+1]))`) is the
`List.range`-fold; it starts from piece `0` of each split and appends, for each
crossing `i`, one synthetic point (`np.zeros(1)` for the trace, `tt_zero[i]`
for the axis) followed by piece `i+1`.  Returns `(trace_zi, tt_zi)`. -/
def insert_zeros (trace : List ℚ) (ttOpt : Option (List ℚ)) : List ℚ × List ℚ :=
  let tt := ttOpt.getD (arangeQ trace.length)
  let zc := zc_idx trace
  let ttz := tt_zero trace tt
  let tt_split := npSplit tt (zc.map (· + 1))
  let trace_split := npSplit trace (zc.map (· + 1))
  (List.range ttz.length).foldl
    (fun acc i =>
      (acc.1 ++ [(0 : ℚ)] ++ trace_split.getD (i + 1) [],
       acc.2 ++ [ttz.getD i 0] ++ tt_split.getD (i + 1) []))
    (trace_split.headD [], tt_split.headD [])

/-- The net effect of the insertion loop on the trace side: piece `0`, then
each later piece preceded by one exact `0`. -/
def weave0 (segs : List (List ℚ)) : List ℚ :=
  segs.headD [] ++ segs.tail.flatMap (fun s => (0 : ℚ) :: s)

/-- The net effect of the insertion loop on the axis side: piece `0`, then for
each crossing the interpolated coordinate followed by the next piece. -/
def weaveZ (segs : List (List ℚ)) (zs : List ℚ) : List ℚ :=
  segs.headD [] ++ (zs.zip segs.tail).flatMap (fun p => p.1 :: p.2)

/-! ## The input normalizer `wiggle_input_check`

Python's dynamically typed arguments are modelled by `PyObj`; a raised
exception is modelled by returning `Except.error`.  Amplitudes are real
numbers because `np.std` takes a square root. -/

/-- A numpy array argument: 1D or 2D.  `len(a.shape)` distinguishes them. -/
inductive NpArr where
  | a1 (v : List ℝ)
  | a2 (m : List (List ℝ))

/-- A Python value passed for `data`/`tt`/`xx`: a numpy array, or some object
whose `type(x).__module__` is not `numpy` (its actual value is irrelevant to
the checked code path). -/
inductive PyObj where
  | np (a : NpArr)
  | other

/-- A raised Python exception, by class and message. -/
inductive PyErr where
  | typeError (msg : String)
  | valueError (msg : String)
deriving DecidableEq

/-- `np.arange n` over the reals. -/
noncomputable def arangeR (n : ℕ) : List ℝ := (List.range n).map (fun i : ℕ => (i : ℝ))

/-- `data.shape[1]` of a rectangular 2D array, read off the first row. -/
def nCols (m : List (List ℝ)) : ℕ := (m.headD []).length

/-- Column `j` of the matrix (`data[:, j]`). -/
def column (m : List (List ℝ)) (j : ℕ) : List ℝ := m.map (fun r => r.getD j 0)

/-- `np.diff l`: differences of consecutive entries. -/
noncomputable def npDiff (l : List ℝ) : List ℝ := (l.zip l.tail).map (fun p => p.2 - p.1)

/-- Minimum of a nonempty list (`0` on the empty list, never used there). -/
noncomputable def minD (l : List ℝ) : ℝ :=
  match l with
  | [] => 0
  | h :: t => t.foldl min h

/-- Maximum of a nonempty list (`0` on the empty list, never used there). -/
noncomputable def maxD (l : List ℝ) : ℝ :=
  match l with
  | [] => 0
  | h :: t => t.foldl max h

/-- `np.min l`; numpy raises `ValueError` on an empty reduction. -/
noncomputable def npMin (l : List ℝ) : Except PyErr ℝ :=
  match l with
  | [] => .error (.valueError
      "zero-size array to reduction operation minimum which has no identity")
  | h :: t => .ok (t.foldl min h)

/-- `np.max l`; numpy raises `ValueError` on an empty reduction. -/
noncomputable def npMax (l : List ℝ) : Except PyErr ℝ :=
  match l with
  | [] => .error (.valueError
      "zero-size array to reduction operation maximum which has no identity")
  | h :: t => .ok (t.foldl max h)

/-- `np.mean l = sum(l) / len(l)`. -/
noncomputable def npMean (l : List ℝ) : ℝ := l.sum / l.length

/-- Population variance, `np.var` with the default `ddof = 0`. -/
noncomputable def npVar (l : List ℝ) : ℝ := npMean (l.map (fun x => (x - npMean l) ^ 2))

/-- `np.std l = sqrt(np.var l)`. -/
noncomputable def npStd (l : List ℝ) : ℝ := Real.sqrt (npVar l)

/-- `np.std(data, axis=0)`: one standard deviation per column. -/
noncomputable def colStds (m : List (List ℝ)) : List ℝ :=
  (List.range (nCols m)).map (fun j => npStd (column m j))

/-- `np.max(np.std(data, axis=0))` as a total value. -/
noncomputable def globalStd (m : List (List ℝ)) : ℝ := maxD (colStds m)

/-- The `tt` block of `wiggle_input_check` (`plot.py` lines 59–71): default to
`np.arange(data.shape[0])`, else require a 1D numpy array whose length is
`data`'s row count. -/
noncomputable def checkTT (m : List (List ℝ)) (tt : Option PyObj) : Except PyErr (List ℝ) :=
  match tt with
  | none => .ok (arangeR m.length)
  | some .other => .error (.typeError "tt must be a numpy array")
  | some (.np (.a2 _)) => .error (.valueError "tt must be a 1D array")
  | some (.np (.a1 t)) =>
      if t.length ≠ m.length then .error (.valueError "tt must have same as data's rows")
      else .ok t

/-- The `xx` block of `wiggle_input_check` (`plot.py` lines 73–87): default to
`np.arange(data.shape[1])`, else require a 1D numpy array.  The length test of
the source is reproduced verbatim: it re-checks `tt.shape[0] != data.shape[0]`
(the already-validated `tt`!) instead of comparing `x.length` with the column
count, and even its error messages still speak about `tt`. -/
noncomputable def checkXX (m : List (List ℝ)) (t : List ℝ) (xx : Option PyObj) :
    Except PyErr (List ℝ) :=
  match xx with
  | none => .ok (arangeR (nCols m))
  | some .other => .error (.typeError "tt must be a numpy array")
  | some (.np (.a2 _)) => .error (.valueError "tt must be a 1D array")
  | some (.np (.a1 x)) =>
      if t.length ≠ m.length then .error (.valueError "tt must have same as data's rows")
      else .ok x

/-- `wiggle_input_check(data, tt, xx, sf, verbose)` from `plot.py`.  The
`verbose` and `sf` `isinstance` checks always pass in this typed model (the
arguments are a `Bool` and a real number by type), so they do not appear.
Validation order matches the source: `data`, then `tt`, then `xx`, then
`ts = np.min(np.diff(xx))`, `data_max_std = np.max(np.std(data, axis=0))`, and
finally the rescaled `data / data_max_std * ts * sf` is returned together with
`tt`, `xx`, `ts`. -/
noncomputable def wiggle_input_check (data : PyObj) (tt xx : Option PyObj) (sf : ℝ)
    (verbose : Bool) : Except PyErr (List (List ℝ) × List ℝ × List ℝ × ℝ) :=
  match data with
  | .other => .error (.typeError "data must be a numpy array")
  | .np (.a1 _) => .error (.valueError "data must be a 2D array")
  | .np (.a2 m) =>
    match checkTT m tt with
    | .error e => .error e
    | .ok t =>
      match checkXX m t xx with
      | .error e => .error e
      | .ok x =>
        match npMin (npDiff x) with
        | .error e => .error e
        | .ok ts =>
          match npMax (colStds m) with
          | .error e => .error e
          | .ok dms =>
              .ok (m.map (fun r => r.map (fun v => v / dms * ts * sf)), t, x, ts)

end Seispy

namespace Seispy

/-! ## Structural lemmas about `npSplit` and the insertion loop -/

theorem npSplitFrom_flatten (idxs : List ℕ) : ∀ (xs : List α) (off : ℕ),
    (npSplitFrom xs off idxs).flatten = xs := by
  induction idxs with
  | nil => intro xs off; simp [npSplitFrom]
  | cons i rest ih => intro xs off; simp [npSplitFrom, ih]

theorem npSplitFrom_length (idxs : List ℕ) : ∀ (xs : List α) (off : ℕ),
    (npSplitFrom xs off idxs).length = idxs.length + 1 := by
  induction idxs with
  | nil => intro xs off; simp [npSplitFrom]
  | cons i rest ih => intro xs off; simp [npSplitFrom, ih]

theorem npSplitFrom_eq_cons (xs : List α) (off : ℕ) (idxs : List ℕ) :
    npSplitFrom xs off idxs =
      (npSplitFrom xs off idxs).headD [] :: (npSplitFrom xs off idxs).tail := by
  cases idxs <;> rfl

/-- A fold that updates the two components of a pair independently is the pair
of the component folds. -/
theorem foldl_prod_split (f g : List ℚ → ℕ → List ℚ) (l : List ℕ) (a b : List ℚ) :
    l.foldl (fun acc i => (f acc.1 i, g acc.2 i)) (a, b) = (l.foldl f a, l.foldl g b) := by
  induction l generalizing a b with
  | nil => rfl
  | cons x xs ih => simp only [List.foldl_cons, ih]

/-- Appending `g i` for each `i < n` in order is appending the concatenation. -/
theorem foldl_append_range (g : ℕ → List ℚ) (init : List ℚ) (n : ℕ) :
    (List.range n).foldl (fun acc i => acc ++ g i) init
      = init ++ (List.range n).flatMap g := by
  induction n with
  | zero => simp
  | succ n ih => rw [List.range_succ]; simp [ih]

theorem flatMap_range_getD (g : List ℚ → List ℚ) (segs : List (List ℚ)) :
    (List.range segs.length).flatMap (fun i => g (segs.getD i [])) = segs.flatMap g := by
  induction segs with
  | nil => simp
  | cons s segs ih =>
    rw [List.length_cons, List.range_succ_eq_map, List.flatMap_cons, List.flatMap_map]
    simp only [List.getD_cons_zero, List.getD_cons_succ, Function.comp]
    rw [ih, List.flatMap_cons]

theorem flatMap_range_zip (g : ℚ → List ℚ → List ℚ) (zs : List ℚ) :
    ∀ segs : List (List ℚ), zs.length ≤ segs.length →
    (List.range zs.length).flatMap (fun i => g (zs.getD i 0) (segs.getD i [])) =
      (zs.zip segs).flatMap (fun p => g p.1 p.2) := by
  induction zs with
  | nil => intro segs _; simp
  | cons z zs ih =>
    intro segs h
    match segs with
    | [] => simp at h
    | s :: segs =>
      rw [List.length_cons, List.range_succ_eq_map, List.flatMap_cons, List.flatMap_map]
      simp only [List.getD_cons_zero, List.getD_cons_succ, Function.comp]
      rw [ih segs (by simpa using h), List.zip_cons_cons, List.flatMap_cons]

/-- The insertion loop of `insert_zeros`, characterized: the trace output is
the split pieces of `trace` glued with one literal `0` before every piece but
the first, and the axis output is the split pieces of `tt` glued with the
interpolated crossing coordinates. -/
theorem insert_zeros_eq (trace : List ℚ) (ttOpt : Option (List ℚ)) :
    insert_zeros trace ttOpt =
      (weave0 (npSplit trace ((zc_idx trace).map (· + 1))),
       weaveZ (npSplit (ttOpt.getD (arangeQ trace.length)) ((zc_idx trace).map (· + 1)))
         (tt_zero trace (ttOpt.getD (arangeQ trace.length)))) := by
  simp only [insert_zeros]
  set tt := ttOpt.getD (arangeQ trace.length) with htt
  set zc := zc_idx trace with hzc
  set zs := tt_zero trace tt with hzs
  set A := npSplit trace (zc.map (· + 1)) with hA
  set B := npSplit tt (zc.map (· + 1)) with hB
  have hAlen : A.length = zc.length + 1 := by
    simpa [hA, npSplit] using npSplitFrom_length (zc.map (· + 1)) trace 0
  have hBlen : B.length = zc.length + 1 := by
    simpa [hB, npSplit] using npSplitFrom_length (zc.map (· + 1)) tt 0
  have hzslen : zs.length = zc.length := by simp [hzs, tt_zero, hzc]
  obtain ⟨a0, A', hA'⟩ : ∃ a0 A', A = a0 :: A' :=
    ⟨_, _, npSplitFrom_eq_cons trace 0 (zc.map (· + 1))⟩
  obtain ⟨b0, B', hB'⟩ : ∃ b0 B', B = b0 :: B' :=
    ⟨_, _, npSplitFrom_eq_cons tt 0 (zc.map (· + 1))⟩
  have hA'len : A'.length = zc.length := by
    have := hAlen; rw [hA'] at this; simpa using this
  have hB'len : B'.length = zc.length := by
    have := hBlen; rw [hB'] at this; simpa using this
  have e1 : (List.range zs.length).foldl
      (fun acc i => acc ++ [(0 : ℚ)] ++ A.getD (i + 1) []) (A.headD [])
      = weave0 A := by
    have : ∀ acc : List ℚ, ∀ i, acc ++ [(0 : ℚ)] ++ A.getD (i + 1) []
        = acc ++ ((0 : ℚ) :: A.getD (i + 1) []) := by
      intro acc i; simp
    simp only [this]
    rw [foldl_append_range (fun i => (0 : ℚ) :: A.getD (i + 1) [])]
    rw [hA']
    simp only [List.getD_cons_succ, List.headD_cons, List.tail_cons, weave0]
    rw [show zs.length = A'.length from hzslen.trans hA'len.symm]
    exact congrArg _ (flatMap_range_getD (fun s => (0 : ℚ) :: s) A')
  have e2 : (List.range zs.length).foldl
      (fun acc i => acc ++ [zs.getD i 0] ++ B.getD (i + 1) []) (B.headD [])
      = weaveZ B zs := by
    have : ∀ acc : List ℚ, ∀ i, acc ++ [zs.getD i 0] ++ B.getD (i + 1) []
        = acc ++ (zs.getD i 0 :: B.getD (i + 1) []) := by
      intro acc i; simp
    simp only [this]
    rw [foldl_append_range (fun i => zs.getD i 0 :: B.getD (i + 1) [])]
    rw [hB']
    simp only [List.getD_cons_succ, List.headD_cons, List.tail_cons, weaveZ]
    exact congrArg _ (flatMap_range_zip (fun z s => z :: s) zs B'
      (le_of_eq (hzslen.trans hB'len.symm)))
  have h12 := foldl_prod_split
      (fun a i => a ++ [(0 : ℚ)] ++ A.getD (i + 1) [])
      (fun b i => b ++ [zs.getD i 0] ++ B.getD (i + 1) [])
      (List.range zs.length) (A.headD []) (B.headD [])
  rw [e1, e2] at h12
  exact h12

theorem flatMap_cons_zero_length (rest : List (List ℚ)) :
    (rest.flatMap (fun s => (0 : ℚ) :: s)).length = rest.length + rest.flatten.length := by
  induction rest with
  | nil => simp
  | cons t rest ih => simp [ih]; omega

theorem weave0_length (segs : List (List ℚ)) :
    (weave0 segs).length = segs.flatten.length + segs.tail.length := by
  match segs with
  | [] => rfl
  | s :: rest =>
    simp only [weave0, List.headD_cons, List.tail_cons, List.flatten_cons,
      List.length_append, flatMap_cons_zero_length]
    omega

theorem flatten_sublist_flatMap_zero (rest : List (List ℚ)) :
    rest.flatten.Sublist (rest.flatMap (fun s => (0 : ℚ) :: s)) := by
  induction rest with
  | nil => simp
  | cons t rest ih =>
    rw [List.flatten_cons, List.flatMap_cons, List.cons_append]
    exact (ih.append_left t).trans (List.sublist_cons_self _ _)

theorem flatten_sublist_weave0 (segs : List (List ℚ)) :
    segs.flatten.Sublist (weave0 segs) := by
  match segs with
  | [] => simp [weave0]
  | s :: rest =>
    simp only [weave0, List.flatten_cons, List.headD_cons, List.tail_cons]
    exact (flatten_sublist_flatMap_zero rest).append_left s

theorem zc_idx_eq_nil_of_const_sign (trace : List ℚ)
    (h : (∀ x ∈ trace, 0 ≤ x) ∨ (∀ x ∈ trace, x < 0)) : zc_idx trace = [] := by
  unfold zc_idx
  rw [List.filter_eq_nil_iff]
  intro i hi
  rw [List.mem_range] at hi
  have hm1 : trace.getD i 0 ∈ trace := by
    rw [List.getD_eq_getElem?_getD, List.getElem?_eq_getElem (by omega)]
    exact List.getElem_mem _
  have hm2 : trace.getD (i + 1) 0 ∈ trace := by
    rw [List.getD_eq_getElem?_getD, List.getElem?_eq_getElem (by omega)]
    exact List.getElem_mem _
  rcases h with h | h
  · have h1 := h _ hm1
    have h2 := h _ hm2
    simp only [signbit, bne_iff_ne, ne_eq, not_not, decide_eq_decide]
    exact iff_of_false (not_lt.2 h1) (not_lt.2 h2)
  · have h1 := h _ hm1
    have h2 := h _ hm2
    simp only [signbit, bne_iff_ne, ne_eq, not_not, decide_eq_decide]
    exact iff_of_true h1 h2

/-- Claim C1: for every trace (and any axis, supplied or defaulted), the
augmented trace returned by `insert_zeros` has length
`len(trace) + |signChanges(trace)|`, where the sign changes are the indices
`i` with `signbit trace[i] ≠ signbit trace[i+1]` collected by `zc_idx`. -/
theorem insert_zeros_length_invariant (trace : List ℚ) (ttOpt : Option (List ℚ)) :
    (insert_zeros trace ttOpt).1.length = trace.length + (zc_idx trace).length := by
  rw [insert_zeros_eq]
  show (weave0 (npSplit trace ((zc_idx trace).map (· + 1)))).length = _
  simp only [npSplit]
  rw [weave0_length, npSplitFrom_flatten, List.length_tail, npSplitFrom_length]
  simp

/-- Claim C2: the output trace of `insert_zeros` consists of all original
samples, unchanged and in their original relative order (the input is a
sublist of the output), and it decomposes as contiguous pieces of the input
glued back with a single exact `0` inserted between consecutive pieces — so
deleting the inserted points recovers the input trace exactly. -/
theorem insert_zeros_preserves_samples (trace : List ℚ) (ttOpt : Option (List ℚ)) :
    trace.Sublist (insert_zeros trace ttOpt).1 ∧
      ∃ segs : List (List ℚ), segs.flatten = trace ∧
        (insert_zeros trace ttOpt).1 = weave0 segs := by
  have hbr := insert_zeros_eq trace ttOpt
  have hfl := npSplitFrom_flatten ((zc_idx trace).map (· + 1)) trace 0
  constructor
  · have hs := flatten_sublist_weave0 (npSplit trace ((zc_idx trace).map (· + 1)))
    rw [show (npSplit trace ((zc_idx trace).map (· + 1))).flatten = trace from hfl] at hs
    rw [hbr]
    exact hs
  · exact ⟨npSplit trace ((zc_idx trace).map (· + 1)), hfl, by rw [hbr]⟩

/-- Claim C3: a trace whose samples all have the same sign (all nonnegative or
all negative — hence no sign changes) is passed through unchanged together
with its axis; the function is total, so no exception is raised. -/
theorem insert_zeros_no_crossing_id (trace tt : List ℚ)
    (h : (∀ x ∈ trace, 0 ≤ x) ∨ (∀ x ∈ trace, x < 0)) :
    insert_zeros trace (some tt) = (trace, tt) := by
  have hz := zc_idx_eq_nil_of_const_sign trace h
  rw [insert_zeros_eq]
  simp [hz, npSplit, npSplitFrom, weave0, weaveZ, tt_zero]

theorem insert_zeros_no_crossing_id_witness :
    ((∀ x ∈ ([1, 2] : List ℚ), 0 ≤ x) ∨ (∀ x ∈ ([1, 2] : List ℚ), x < 0)) ∧
      insert_zeros [1, 2] (some [0, 1]) = ([1, 2], [0, 1]) :=
  ⟨Or.inl (by decide), insert_zeros_no_crossing_id [1, 2] [0, 1] (Or.inl (by decide))⟩

/-- Claim C4: for the trace `[1, -1]` with axis `[0, 1]` the single inserted
crossing is at coordinate `1/2`, giving amplitudes `[1, 0, -1]` at
`[0, 1/2, 1]`; and in the §8 example scenario (`data = [[1, 2], [-1, -2]]`,
`tt = [0, 1]`), column 0 of `data` is that very trace, so its augmented trace
is amplitudes `[1, 0, -1]` at axis `[0, 1/2, 1]`. -/
theorem insert_zeros_interpolation_example :
    insert_zeros [1, -1] (some [0, 1]) = ([1, 0, -1], [0, 1/2, 1]) ∧
      insert_zeros (([[1, 2], [-1, -2]] : List (List ℚ)).map (fun r => r.getD 0 0))
        (some [0, 1]) = ([1, 0, -1], [0, 1/2, 1]) := by
  have hcol : (([[1, 2], [-1, -2]] : List (List ℚ)).map (fun r => r.getD 0 0)) = [1, -1] := by
    decide
  have h1 : insert_zeros [1, -1] (some [0, 1]) = ([1, 0, -1], [0, 1/2, 1]) := by
    simp +decide [insert_zeros, zc_idx, tt_zero, npSplit, npSplitFrom, signbit, List.range_succ]
    norm_num
  exact ⟨h1, by rw [hcol]; exact h1⟩

/-! ## Monotonicity of the augmented axis (claim C5) -/

theorem getD_mem (l : List α) (k : ℕ) (d : α) (h : k < l.length) : l.getD k d ∈ l := by
  rw [List.getD_eq_getElem?_getD, List.getElem?_eq_getElem h]
  exact List.getElem_mem _

theorem getD_map_add_one (l : List ℕ) (k : ℕ) (h : k < l.length) :
    (l.map (· + 1)).getD k 0 = l.getD k 0 + 1 := by
  rw [List.getD_eq_getElem?_getD, List.getD_eq_getElem?_getD, List.getElem?_map,
    List.getElem?_eq_getElem h]
  rfl

theorem getD_map_of_lt (f : ℕ → ℚ) (l : List ℕ) (k : ℕ) (h : k < l.length) :
    (l.map f).getD k 0 = f (l.getD k 0) := by
  rw [List.getD_eq_getElem?_getD, List.getD_eq_getElem?_getD, List.getElem?_map,
    List.getElem?_eq_getElem h]
  rfl

theorem getD_drop (l : List ℚ) (n k : ℕ) (h : n + k < l.length) :
    (l.drop n).getD k 0 = l.getD (n + k) 0 := by
  rw [List.getD_eq_getElem?_getD, List.getD_eq_getElem?_getD, List.getElem?_drop]

theorem head?_take_of_pos (l : List ℚ) (k : ℕ) (h : 1 ≤ k) : (l.take k).head? = l.head? := by
  match l, k with
  | [], _ => simp
  | a :: l, k + 1 => simp

theorem getLast?_take_eq (l : List ℚ) (k : ℕ) (h1 : 1 ≤ k) (h2 : k - 1 < l.length) :
    (l.take k).getLast? = some (l.getD (k - 1) 0) := by
  obtain ⟨m, rfl⟩ : ∃ m, k = m + 1 := ⟨k - 1, by omega⟩
  have hm : m < l.length := by omega
  rw [List.take_succ, List.getElem?_eq_getElem hm, Option.toList_some, List.getLast?_concat,
    List.getD_eq_getElem?_getD, List.getElem?_eq_getElem (show m + 1 - 1 < l.length from h2)]
  rfl

theorem chain'_getD_le (l : List ℚ) (hc : l.Chain' (· ≤ ·)) (i : ℕ) (h : i + 1 < l.length) :
    l.getD i 0 ≤ l.getD (i + 1) 0 := by
  rw [List.getD_eq_getElem?_getD, List.getD_eq_getElem?_getD,
    List.getElem?_eq_getElem (by omega : i < l.length), List.getElem?_eq_getElem h]
  exact List.chain'_iff_get.1 hc i (by omega)

/-- The interpolated crossing coordinate `x1 - y1 / ((y2 - y1) / (x2 - x1))`
lies between `x1` and `x2` whenever the two samples have different `signbit`s
and `x1 ≤ x2`.  (When `x1 = x2`, division by zero makes the expression `x1`.) -/
theorem interp_between (y1 y2 x1 x2 : ℚ) (hs : signbit y1 ≠ signbit y2) (hx : x1 ≤ x2) :
    x1 ≤ x1 - y1 / ((y2 - y1) / (x2 - x1)) ∧ x1 - y1 / ((y2 - y1) / (x2 - x1)) ≤ x2 := by
  rcases eq_or_lt_of_le hx with heq | hlt
  · rw [← heq]
    simp [sub_self, div_zero]
  · have hxpos : (0 : ℚ) < x2 - x1 := sub_pos.2 hlt
    rw [div_div_eq_mul_div]
    have hsign : (y1 < 0) ≠ (y2 < 0) := by
      intro hcontra
      exact hs (by simp [signbit, hcontra])
    rcases lt_or_le y1 0 with hy1 | hy1
    · -- y1 < 0, so y2 ≥ 0 and the denominator y2 - y1 is positive
      have hy2 : 0 ≤ y2 := by
        by_contra hy2
        exact hsign (by simp [hy1, lt_of_not_le hy2])
      have hden : (0 : ℚ) < y2 - y1 := by linarith
      constructor
      · have : y1 * (x2 - x1) / (y2 - y1) ≤ 0 :=
          div_nonpos_iff.2 (Or.inr ⟨by nlinarith, le_of_lt hden⟩)
        linarith
      · rw [sub_le_iff_le_add, ← sub_le_iff_le_add']
        rw [le_div_iff₀ hden]
        nlinarith
    · -- y1 ≥ 0, so y2 < 0 and the denominator y2 - y1 is negative
      have hy2 : y2 < 0 := by
        by_contra hy2
        exact hsign (by simp [not_lt.2 hy1, not_lt.2 (le_of_not_lt hy2)])
      have hden : y2 - y1 < 0 := by linarith
      constructor
      · have : y1 * (x2 - x1) / (y2 - y1) ≤ 0 :=
          div_nonpos_iff.2 (Or.inl ⟨by nlinarith, le_of_lt hden⟩)
        linarith
      · rw [sub_le_iff_le_add, ← sub_le_iff_le_add']
        rw [le_div_iff_of_neg hden]
        nlinarith

theorem weaveZ_cons (s : List ℚ) (S : List (List ℚ)) (z : ℚ) (zs : List ℚ) (hS : S ≠ []) :
    weaveZ (s :: S) (z :: zs) = s ++ z :: weaveZ S zs := by
  match S with
  | s' :: S' => simp [weaveZ, List.zip_cons_cons, List.flatMap_cons]

theorem weaveZ_head? (idxs : List ℕ) (u : List ℚ) (off : ℕ) (zs : List ℚ)
    (hu : u ≠ []) (hpos : ∀ j ∈ idxs, off < j) :
    (weaveZ (npSplitFrom u off idxs) zs).head? = u.head? := by
  obtain ⟨a, u', rfl⟩ := List.exists_cons_of_ne_nil hu
  match idxs with
  | [] => simp [npSplitFrom, weaveZ]
  | j :: rest =>
    have hj : off < j := hpos j (by simp)
    obtain ⟨m, hm⟩ : ∃ m, j - off = m + 1 := ⟨j - off - 1, by omega⟩
    simp [npSplitFrom, weaveZ, hm]

/-- Core induction for claim C5: splicing the interpolated coordinates between
the split pieces of a sorted axis keeps the result sorted, as long as each
spliced value lies between the two samples surrounding its cut. -/
theorem chain_weaveZ (idxs : List ℕ) :
    ∀ (zs xs : List ℚ) (off : ℕ),
      xs.Chain' (· ≤ ·) →
      zs.length = idxs.length →
      idxs.Pairwise (· < ·) →
      (∀ j ∈ idxs, off < j) →
      (∀ j ∈ idxs, j - off < xs.length) →
      (∀ k, k < idxs.length →
        xs.getD (idxs.getD k 0 - off - 1) 0 ≤ zs.getD k 0 ∧
          zs.getD k 0 ≤ xs.getD (idxs.getD k 0 - off) 0) →
      (weaveZ (npSplitFrom xs off idxs) zs).Chain' (· ≤ ·) := by
  induction idxs with
  | nil =>
    intro zs xs off hchain hlen _ _ _ _
    have hz : zs = [] := List.eq_nil_of_length_eq_zero (by simpa using hlen)
    subst hz
    simpa [npSplitFrom, weaveZ] using hchain
  | cons i rest ih =>
    intro zs xs off hchain hlen hpw hpos hub hbound
    obtain ⟨z, zs', rfl⟩ : ∃ z zs', zs = z :: zs' := by
      match zs with
      | z :: zs' => exact ⟨z, zs', rfl⟩
      | [] => simp at hlen
    have hioff : off < i := hpos i (by simp)
    have hilen : i - off < xs.length := hub i (by simp)
    have hpw' := List.pairwise_cons.1 hpw
    have hrest_pos : ∀ j ∈ rest, i < j := hpw'.1
    rw [show npSplitFrom xs off (i :: rest)
        = xs.take (i - off) :: npSplitFrom (xs.drop (i - off)) i rest from rfl]
    have hS_ne : npSplitFrom (xs.drop (i - off)) i rest ≠ [] := by
      intro h
      have hl := npSplitFrom_length rest (xs.drop (i - off)) i
      rw [h] at hl
      simp at hl
    rw [weaveZ_cons _ _ _ _ hS_ne]
    have hdrop_ne : xs.drop (i - off) ≠ [] := by
      intro h
      have := congrArg List.length h
      rw [List.length_drop] at this
      simp at this
      omega
    have hrec : (weaveZ (npSplitFrom (xs.drop (i - off)) i rest) zs').Chain' (· ≤ ·) := by
      apply ih zs' (xs.drop (i - off)) i (hchain.drop _) (by simpa using hlen) hpw'.2
        hrest_pos
      · intro j hj
        have h1 : i < j := hrest_pos j hj
        have h2 : j - off < xs.length := hub j (List.mem_cons_of_mem _ hj)
        rw [List.length_drop]
        omega
      · intro k hk
        have hk' : k + 1 < (i :: rest).length := by simpa using Nat.succ_lt_succ hk
        have hb := hbound (k + 1) hk'
        have hjmem : rest.getD k 0 ∈ rest := getD_mem rest k 0 hk
        have hji : i < rest.getD k 0 := hrest_pos _ hjmem
        have hjlen : rest.getD k 0 - off < xs.length :=
          hub _ (List.mem_cons_of_mem _ hjmem)
        have e0 : (i :: rest).getD (k + 1) 0 = rest.getD k 0 := by simp
        have e1 : (z :: zs').getD (k + 1) 0 = zs'.getD k 0 := by simp
        rw [e0, e1] at hb
        constructor
        · have h := hb.1
          rwa [getD_drop xs (i - off) (rest.getD k 0 - i - 1) (by omega),
            show i - off + (rest.getD k 0 - i - 1) = rest.getD k 0 - off - 1 by omega]
        · have h := hb.2
          rwa [getD_drop xs (i - off) (rest.getD k 0 - i) (by omega),
            show i - off + (rest.getD k 0 - i) = rest.getD k 0 - off by omega]
    have hb0 := hbound 0 (by simp)
    have e0 : (i :: rest).getD 0 0 = i := rfl
    have e1 : (z :: zs').getD 0 0 = z := rfl
    rw [e0, e1] at hb0
    have hhead : (weaveZ (npSplitFrom (xs.drop (i - off)) i rest) zs').head?
        = some (xs.getD (i - off) 0) := by
      rw [weaveZ_head? rest (xs.drop (i - off)) i zs' hdrop_ne hrest_pos, List.head?_drop,
        List.getD_eq_getElem?_getD, List.getElem?_eq_getElem hilen]
      rfl
    apply List.chain'_append.2
    refine ⟨hchain.take _, ?_, ?_⟩
    · rw [List.chain'_cons']
      refine ⟨?_, hrec⟩
      intro y hy
      rw [hhead, Option.mem_def, Option.some_inj] at hy
      rw [← hy]
      exact hb0.2
    · intro x hx y hy
      rw [getLast?_take_eq xs (i - off) (by omega) (by omega),
        Option.mem_def, Option.some_inj] at hx
      rw [List.head?_cons, Option.mem_def, Option.some_inj] at hy
      rw [← hx, ← hy]
      exact hb0.1

/-- Claim C5: when the sample axis is monotonically non-decreasing (and has
one coordinate per sample), the augmented axis returned by `insert_zeros` is
still non-decreasing: every interpolated crossing coordinate lands between the
two coordinates it is spliced between. -/
theorem insert_zeros_axis_sorted (trace tt : List ℚ)
    (hlen : tt.length = trace.length) (hchain : tt.Chain' (· ≤ ·)) :
    ((insert_zeros trace (some tt)).2).Chain' (· ≤ ·) := by
  rw [insert_zeros_eq]
  simp only [Option.getD_some, npSplit]
  have htz : tt_zero trace tt = (zc_idx trace).map (fun i =>
      tt.getD i 0 - trace.getD i 0 /
        ((trace.getD (i + 1) 0 - trace.getD i 0) / (tt.getD (i + 1) 0 - tt.getD i 0))) := rfl
  have hmem_zc : ∀ i ∈ zc_idx trace, i < trace.length - 1 ∧
      signbit (trace.getD i 0) ≠ signbit (trace.getD (i + 1) 0) := by
    intro i hi
    unfold zc_idx at hi
    have h1 := List.mem_filter.1 hi
    exact ⟨List.mem_range.1 h1.1, bne_iff_ne.1 h1.2⟩
  apply chain_weaveZ ((zc_idx trace).map (· + 1)) (tt_zero trace tt) tt 0 hchain
  · simp [tt_zero]
  · rw [List.pairwise_map]
    have h1 : (zc_idx trace).Pairwise (· < ·) :=
      List.Pairwise.filter _ (List.pairwise_lt_range _)
    exact h1.imp (by omega)
  · intro j hj
    rw [List.mem_map] at hj
    obtain ⟨i, _, rfl⟩ := hj
    omega
  · intro j hj
    rw [List.mem_map] at hj
    obtain ⟨i, hi, rfl⟩ := hj
    have := (hmem_zc i hi).1
    rw [hlen]
    omega
  · intro k hk
    rw [List.length_map] at hk
    rw [getD_map_add_one _ _ hk, htz,
      getD_map_of_lt _ _ _ (by simpa [tt_zero] using hk)]
    set i := (zc_idx trace).getD k 0 with hi
    have himem : i ∈ zc_idx trace := getD_mem _ _ _ hk
    obtain ⟨hilt, hisign⟩ := hmem_zc i himem
    have hi1 : i + 1 < tt.length := by rw [hlen]; omega
    have hx12 : tt.getD i 0 ≤ tt.getD (i + 1) 0 := chain'_getD_le tt hchain i hi1
    have hinterp := interp_between (trace.getD i 0) (trace.getD (i + 1) 0)
      (tt.getD i 0) (tt.getD (i + 1) 0) hisign hx12
    constructor
    · rw [show i + 1 - 0 - 1 = i by omega]
      exact hinterp.1
    · rw [show i + 1 - 0 = i + 1 by omega]
      exact hinterp.2

theorem insert_zeros_axis_sorted_witness :
    ([(0 : ℚ), 1].length = [(1 : ℚ), -1].length ∧
        ([(0 : ℚ), 1] : List ℚ).Chain' (· ≤ ·)) ∧
      ((insert_zeros [1, -1] (some [0, 1])).2).Chain' (· ≤ ·) :=
  ⟨⟨by decide, List.chain'_pair.2 (by decide)⟩,
    insert_zeros_axis_sorted [1, -1] [0, 1] (by decide) (List.chain'_pair.2 (by decide))⟩

/-- Claim C10: a sample exactly `0.0` followed by a negative sample is one
crossing (`signbit 0 = false` groups `0` with the positives), and the
synthetic zero is inserted at the zero sample's own coordinate, duplicating
it: `insert_zeros [1, 0, -1] [0, 1, 2] = ([1, 0, 0, -1], [0, 1, 1, 2])`. -/
theorem insert_zeros_zero_sample_example :
    zc_idx [1, 0, -1] = [1] ∧
      insert_zeros [1, 0, -1] (some [0, 1, 2]) = ([1, 0, 0, -1], [0, 1, 1, 2]) := by
  refine ⟨by decide, ?_⟩
  simp +decide [insert_zeros, zc_idx, tt_zero, npSplit, npSplitFrom, signbit, List.range_succ]

/-! ## Claims about the input normalizer -/

theorem npMin_eq_ok (l : List ℝ) (h : l ≠ []) : npMin l = .ok (minD l) := by
  match l, h with
  | a :: t, _ => rfl

theorem npMax_eq_ok (l : List ℝ) (h : l ≠ []) : npMax l = .ok (maxD l) := by
  match l, h with
  | a :: t, _ => rfl

/-- Success path of `wiggle_input_check` with `tt` and `xx` supplied: under
the shape conditions every check passes and the returned tuple is the
amplitude matrix rescaled elementwise by
`traceSpacing * scaleFactor / globalStd` together with `tt`, `xx` and
`traceSpacing` unchanged. -/
theorem wiggle_input_check_ok (m : List (List ℝ)) (t x : List ℝ) (sf : ℝ) (v : Bool)
    (ht : t.length = m.length) (hx : 2 ≤ x.length) (hcols : 1 ≤ nCols m) :
    wiggle_input_check (.np (.a2 m)) (some (.np (.a1 t))) (some (.np (.a1 x))) sf v
      = .ok (m.map (fun r => r.map (fun a => a * (minD (npDiff x) * sf / globalStd m))),
          t, x, minD (npDiff x)) := by
  have hTT : checkTT m (some (.np (.a1 t))) = .ok t := by simp [checkTT, ht]
  have hXX : checkXX m t (some (.np (.a1 x))) = .ok x := by simp [checkXX, ht]
  have hdiff_ne : npDiff x ≠ [] := by
    intro hnil
    have := congrArg List.length hnil
    simp [npDiff] at this
    omega
  have hstds_ne : colStds m ≠ [] := by
    intro hnil
    have := congrArg List.length hnil
    simp [colStds] at this
    omega
  simp only [wiggle_input_check, hTT, hXX, npMin_eq_ok _ hdiff_ne, npMax_eq_ok _ hstds_ne,
    globalStd]
  simp only [show ∀ a : ℝ, a / maxD (colStds m) * minD (npDiff x) * sf
      = a * (minD (npDiff x) * sf / maxD (colStds m)) from fun a => by ring]

/-- Claim C6: for every valid input the normalizer multiplies every element of
`data` by `traceSpacing * scaleFactor / globalStd` (with `traceSpacing` the
minimum adjacent difference of `xx` and `globalStd` the maximum per-column
standard deviation), and returns `tt`, `xx` and `traceSpacing` themselves,
never rescaling the axes. -/
theorem wiggle_input_check_normalizes (m : List (List ℝ)) (t x : List ℝ) (sf : ℝ) (v : Bool)
    (ht : t.length = m.length) (hx : 2 ≤ x.length) (hcols : 1 ≤ nCols m) :
    wiggle_input_check (.np (.a2 m)) (some (.np (.a1 t))) (some (.np (.a1 x))) sf v
      = .ok (m.map (fun r => r.map (fun a => a * (minD (npDiff x) * sf / globalStd m))),
          t, x, minD (npDiff x)) :=
  wiggle_input_check_ok m t x sf v ht hx hcols

theorem wiggle_input_check_normalizes_witness :
    (([(5 : ℝ), 6].length = [[(1 : ℝ), 2], [3, 4]].length ∧ 2 ≤ [(7 : ℝ), 9].length ∧
        1 ≤ nCols [[(1 : ℝ), 2], [3, 4]]) ∧
      wiggle_input_check (.np (.a2 [[(1 : ℝ), 2], [3, 4]]))
          (some (.np (.a1 [5, 6]))) (some (.np (.a1 [7, 9]))) 1 false
        = .ok ([[(1 : ℝ), 2], [3, 4]].map (fun r => r.map (fun a =>
            a * (minD (npDiff [7, 9]) * 1 / globalStd [[(1 : ℝ), 2], [3, 4]]))),
            [5, 6], [7, 9], minD (npDiff [7, 9]))) :=
  ⟨⟨by decide, by decide, by decide⟩,
    wiggle_input_check_normalizes [[(1 : ℝ), 2], [3, 4]] [5, 6] [7, 9] 1 false
      (by decide) (by decide) (by decide)⟩

/-! ### How the normalizer transforms under amplitude scaling (claim C7) -/

theorem sum_map_mul (c : ℝ) (l : List ℝ) : (l.map (fun a => c * a)).sum = c * l.sum := by
  induction l with
  | nil => simp
  | cons a l ih => simp [ih, mul_add]

theorem npMean_map_mul (c : ℝ) (l : List ℝ) :
    npMean (l.map (fun a => c * a)) = c * npMean l := by
  simp [npMean, sum_map_mul, mul_div_assoc]

theorem npVar_map_mul (c : ℝ) (l : List ℝ) :
    npVar (l.map (fun a => c * a)) = c ^ 2 * npVar l := by
  unfold npVar
  rw [npMean_map_mul]
  have h : (l.map (fun a => c * a)).map (fun x => (x - c * npMean l) ^ 2)
      = (l.map (fun x => (x - npMean l) ^ 2)).map (fun y => c ^ 2 * y) := by
    simp only [List.map_map]
    congr 1
    funext a
    simp only [Function.comp_apply]
    ring
  rw [h, npMean_map_mul]

theorem npStd_map_mul (c : ℝ) (hc : 0 ≤ c) (l : List ℝ) :
    npStd (l.map (fun a => c * a)) = c * npStd l := by
  unfold npStd
  rw [npVar_map_mul, Real.sqrt_mul (by positivity), Real.sqrt_sq hc]

theorem getD_map_mul (c : ℝ) (r : List ℝ) (j : ℕ) :
    (r.map (fun a => c * a)).getD j 0 = c * r.getD j 0 := by
  rw [List.getD_eq_getElem?_getD, List.getD_eq_getElem?_getD, List.getElem?_map]
  cases h : r[j]? <;> simp

theorem column_map_mul (c : ℝ) (m : List (List ℝ)) (j : ℕ) :
    column (m.map (fun r => r.map (fun a => c * a))) j
      = (column m j).map (fun a => c * a) := by
  simp only [column, List.map_map]
  congr 1
  funext r
  simp only [Function.comp_apply]
  exact getD_map_mul c r j

theorem nCols_map_mul (c : ℝ) (m : List (List ℝ)) :
    nCols (m.map (fun r => r.map (fun a => c * a))) = nCols m := by
  cases m <;> simp [nCols]

theorem colStds_map_mul (c : ℝ) (hc : 0 ≤ c) (m : List (List ℝ)) :
    colStds (m.map (fun r => r.map (fun a => c * a)))
      = (colStds m).map (fun a => c * a) := by
  simp only [colStds, nCols_map_mul, List.map_map]
  congr 1
  funext j
  simp only [Function.comp_apply]
  rw [column_map_mul, npStd_map_mul c hc]

theorem foldl_max_map_mul (c : ℝ) (hc : 0 ≤ c) (t : List ℝ) :
    ∀ h : ℝ, (t.map (fun a => c * a)).foldl max (c * h) = c * t.foldl max h := by
  induction t with
  | nil => intro h; simp
  | cons a t ih =>
    intro h
    simp only [List.map_cons, List.foldl_cons]
    rw [← mul_max_of_nonneg _ _ hc, ih]

theorem maxD_map_mul (c : ℝ) (hc : 0 ≤ c) (l : List ℝ) :
    maxD (l.map (fun a => c * a)) = c * maxD l := by
  cases l with
  | nil => simp [maxD]
  | cons h t =>
    simp only [maxD, List.map_cons]
    exact foldl_max_map_mul c hc t h

theorem globalStd_map_mul (c : ℝ) (hc : 0 ≤ c) (m : List (List ℝ)) :
    globalStd (m.map (fun r => r.map (fun a => c * a))) = c * globalStd m := by
  rw [globalStd, colStds_map_mul c hc, maxD_map_mul c hc, globalStd]

/-- Claim C7 (amended): scaling every data amplitude by a positive constant
`c` while keeping `scaleFactor` *unchanged* yields the identical normalized
output — the per-column standard deviations scale with `c`, cancelling it.
(The claim's variant with `scaleFactor` divided by `c` instead shrinks the
output by `1/c`.) -/
theorem wiggle_input_check_scale_invariance (m : List (List ℝ)) (t x : List ℝ) (sf : ℝ)
    (v : Bool) (c : ℝ) (hc : 0 < c)
    (ht : t.length = m.length) (hx : 2 ≤ x.length) (hcols : 1 ≤ nCols m) :
    wiggle_input_check (.np (.a2 (m.map (fun r => r.map (fun a => c * a)))))
        (some (.np (.a1 t))) (some (.np (.a1 x))) sf v
      = wiggle_input_check (.np (.a2 m)) (some (.np (.a1 t))) (some (.np (.a1 x))) sf v := by
  rw [wiggle_input_check_ok m t x sf v ht hx hcols,
    wiggle_input_check_ok _ t x sf v (by simpa using ht) hx (by rwa [nCols_map_mul])]
  refine congrArg Except.ok (Prod.ext ?_ rfl)
  rw [globalStd_map_mul c hc.le]
  simp only [List.map_map]
  congr 1
  funext r
  simp only [Function.comp_apply, List.map_map]
  congr 1
  funext a
  simp only [Function.comp_apply]
  rcases eq_or_ne (globalStd m) 0 with h0 | h0
  · simp [h0]
  · field_simp
    ring

theorem wiggle_input_check_scale_invariance_witness :
    ((0 : ℝ) < 2 ∧ [(0 : ℝ), 1].length = [[(1 : ℝ), 1], [-1, -1]].length ∧
        2 ≤ [(0 : ℝ), 1].length ∧ 1 ≤ nCols [[(1 : ℝ), 1], [-1, -1]]) ∧
      wiggle_input_check
          (.np (.a2 ([[(1 : ℝ), 1], [-1, -1]].map (fun r => r.map (fun a => 2 * a)))))
          (some (.np (.a1 [0, 1]))) (some (.np (.a1 [0, 1]))) 1 false
        = wiggle_input_check (.np (.a2 [[(1 : ℝ), 1], [-1, -1]]))
            (some (.np (.a1 [0, 1]))) (some (.np (.a1 [0, 1]))) 1 false :=
  ⟨⟨by norm_num, by decide, by decide, by decide⟩,
    wiggle_input_check_scale_invariance [[(1 : ℝ), 1], [-1, -1]] [0, 1] [0, 1] 1 false 2
      (by norm_num) (by decide) (by decide) (by decide)⟩

/-- Success path of `wiggle_input_check` with both axes defaulted. -/
theorem wiggle_input_check_ok_default (m : List (List ℝ)) (sf : ℝ) (v : Bool)
    (hx : 2 ≤ nCols m) :
    wiggle_input_check (.np (.a2 m)) none none sf v
      = .ok (m.map (fun r => r.map (fun a =>
            a * (minD (npDiff (arangeR (nCols m))) * sf / globalStd m))),
          arangeR m.length, arangeR (nCols m), minD (npDiff (arangeR (nCols m)))) := by
  have hTT : checkTT m none = .ok (arangeR m.length) := rfl
  have hXX : checkXX m (arangeR m.length) none = .ok (arangeR (nCols m)) := rfl
  have hdiff_ne : npDiff (arangeR (nCols m)) ≠ [] := by
    intro hnil
    have hlen := congrArg List.length hnil
    rw [List.length_nil] at hlen
    have harange : (arangeR (nCols m)).length = nCols m := by
      unfold arangeR
      have h := List.length_map (List.range (nCols m)) (fun i => (i : ℝ))
      rw [List.length_range] at h
      exact h
    simp [npDiff, List.length_zip, List.length_tail, harange] at hlen
    omega
  have hstds_ne : colStds m ≠ [] := by
    intro hnil
    have := congrArg List.length hnil
    simp [colStds] at this
    omega
  simp only [wiggle_input_check, hTT, hXX, npMin_eq_ok _ hdiff_ne, npMax_eq_ok _ hstds_ne,
    globalStd]
  simp only [show ∀ a : ℝ, a / maxD (colStds m) * minD (npDiff (arangeR (nCols m))) * sf
      = a * (minD (npDiff (arangeR (nCols m))) * sf / maxD (colStds m)) from
    fun a => by ring]

/-- Counterexample to claim C7 as frozen: scaling the data by `c = 2` and
dividing `scaleFactor` by `c` (here `sf = 2` becomes `1`) does **not**
reproduce the original normalized output — it shrinks it by `1/c`, because the
global standard deviation already absorbs the factor `c`. -/
theorem wiggle_scale_sf_div_c_counterexample :
    wiggle_input_check (.np (.a2 [[(2 : ℝ), 2], [-2, -2]])) none none 1 false
      ≠ wiggle_input_check (.np (.a2 [[(1 : ℝ), 1], [-1, -1]])) none none 2 false := by
  have hs4 : Real.sqrt 4 = 2 := by
    rw [show (4 : ℝ) = 2 ^ 2 by norm_num, Real.sqrt_sq (by norm_num : (0 : ℝ) ≤ 2)]
  have hstd1 : npStd [(1 : ℝ), -1] = 1 := by
    have hv : npVar [(1 : ℝ), -1] = 1 := by norm_num [npVar, npMean]
    rw [npStd, hv, Real.sqrt_one]
  have hstd2 : npStd [(2 : ℝ), -2] = 2 := by
    have hv : npVar [(2 : ℝ), -2] = 4 := by norm_num [npVar, npMean]
    rw [npStd, hv, hs4]
  have hc2 : colStds [[(2 : ℝ), 2], [-2, -2]] = [2, 2] := by
    simp [colStds, nCols, List.range_succ, column, hstd2]
  have hc1 : colStds [[(1 : ℝ), 1], [-1, -1]] = [1, 1] := by
    simp [colStds, nCols, List.range_succ, column, hstd1]
  have hg2 : globalStd [[(2 : ℝ), 2], [-2, -2]] = 2 := by
    rw [globalStd, hc2]; simp [maxD]
  have hg1 : globalStd [[(1 : ℝ), 1], [-1, -1]] = 1 := by
    rw [globalStd, hc1]; simp [maxD]
  have ha2 : arangeR 2 = [0, 1] := by simp [arangeR, List.range_succ]
  have hd : npDiff [(0 : ℝ), 1] = [1] := by norm_num [npDiff]
  rw [wiggle_input_check_ok_default _ 1 false (by decide),
    wiggle_input_check_ok_default _ 2 false (by decide)]
  simp only [show nCols [[(2 : ℝ), 2], [-2, -2]] = 2 from rfl,
    show nCols [[(1 : ℝ), 1], [-1, -1]] = 2 from rfl,
    show [[(2 : ℝ), 2], [-2, -2]].length = 2 from rfl,
    show [[(1 : ℝ), 1], [-1, -1]].length = 2 from rfl,
    ha2, hd, hg1, hg2, show minD [(1 : ℝ)] = 1 from rfl]
  simp only [ne_eq, Except.ok.injEq, Prod.mk.injEq, not_and]
  intro hdata
  exfalso
  have h00 := congrArg (fun l => (l.headD []).headD 0) hdata
  norm_num at h00

/-- Claim C8: the normalizer's `xx` branch re-runs the `tt` length test
(`tt.shape[0] != data.shape[0]`) instead of comparing `xx`'s length with the
column count — the embedded `checkXX` contains that comparison verbatim — so a
1D `xx` whose length differs from the column count is never rejected: with a
valid `tt` the whole call still succeeds. -/
theorem wiggle_xx_mismatch_not_rejected (m : List (List ℝ)) (t x : List ℝ) (sf : ℝ)
    (v : Bool) (ht : t.length = m.length) (hx : 2 ≤ x.length) (hcols : 1 ≤ nCols m)
    (hmis : x.length ≠ nCols m) :
    checkXX m t (some (.np (.a1 x)))
        = (if t.length ≠ m.length then .error (.valueError "tt must have same as data's rows")
           else .ok x) ∧
      ∃ out, wiggle_input_check (.np (.a2 m)) (some (.np (.a1 t))) (some (.np (.a1 x))) sf v
        = .ok out :=
  ⟨rfl, ⟨_, wiggle_input_check_ok m t x sf v ht hx hcols⟩⟩

theorem wiggle_xx_mismatch_not_rejected_witness :
    (([(0 : ℝ), 1].length = [[(1 : ℝ), 2], [3, 4]].length ∧ 2 ≤ [(0 : ℝ), 1, 2].length ∧
        1 ≤ nCols [[(1 : ℝ), 2], [3, 4]] ∧ [(0 : ℝ), 1, 2].length ≠ nCols [[(1 : ℝ), 2], [3, 4]]) ∧
      checkXX [[(1 : ℝ), 2], [3, 4]] [0, 1] (some (.np (.a1 [0, 1, 2])))
          = (if [(0 : ℝ), 1].length ≠ [[(1 : ℝ), 2], [3, 4]].length
             then .error (.valueError "tt must have same as data's rows")
             else .ok [0, 1, 2]) ∧
        ∃ out, wiggle_input_check (.np (.a2 [[(1 : ℝ), 2], [3, 4]]))
            (some (.np (.a1 [0, 1]))) (some (.np (.a1 [0, 1, 2]))) 0.15 true = .ok out) :=
  ⟨⟨by decide, by decide, by decide, by decide⟩,
    wiggle_xx_mismatch_not_rejected [[(1 : ℝ), 2], [3, 4]] [0, 1] [0, 1, 2] 0.15 true
      (by decide) (by decide) (by decide) (by decide)⟩

/-- Claim C9 (amended): `wiggle_input_check` rejects, before any computation,
every `data` argument that is not a 2D numpy array — a 1D array of any length
(including the empty one) with a `ValueError`, a non-array with a `TypeError`.
It does *not*, however, check the row count itself: a 2D array with a single
row passes validation. -/
theorem wiggle_rejects_non_2d (tt xx : Option PyObj) (sf : ℝ) (v : Bool) :
    (∀ w : List ℝ, wiggle_input_check (.np (.a1 w)) tt xx sf v
        = .error (.valueError "data must be a 2D array")) ∧
      wiggle_input_check .other tt xx sf v
        = .error (.typeError "data must be a numpy array") :=
  ⟨fun _ => rfl, rfl⟩

/-- Counterexample to claim C9 as frozen: a 2D array with only one row — fewer
than 2 rows — is *not* rejected; the call returns successfully.  (There is no
row-count check in the source: only `len(data.shape) != 2`.  In numpy the
single-row column standard deviations are `0` and the division emits a runtime
warning with `inf`/`nan` values, but no exception is raised; in this exact
model the division by the zero `globalStd` yields `0`.) -/
theorem wiggle_single_row_not_rejected :
    wiggle_input_check (.np (.a2 [[(1 : ℝ), 2]])) none none 1 false
      = .ok ([[0, 0]], [0], [0, 1], 1) := by
  have hstd1 : npStd [(1 : ℝ)] = 0 := by
    have hv : npVar [(1 : ℝ)] = 0 := by norm_num [npVar, npMean]
    rw [npStd, hv, Real.sqrt_zero]
  have hstd2 : npStd [(2 : ℝ)] = 0 := by
    have hv : npVar [(2 : ℝ)] = 0 := by norm_num [npVar, npMean]
    rw [npStd, hv, Real.sqrt_zero]
  have hc : colStds [[(1 : ℝ), 2]] = [0, 0] := by
    simp [colStds, nCols, List.range_succ, column, hstd1, hstd2]
  have hg : globalStd [[(1 : ℝ), 2]] = 0 := by
    rw [globalStd, hc]; simp [maxD]
  have ha2 : arangeR 2 = [0, 1] := by simp [arangeR, List.range_succ]
  have ha1 : arangeR 1 = [0] := by simp [arangeR, List.range_succ]
  have hd : npDiff [(0 : ℝ), 1] = [1] := by norm_num [npDiff]
  rw [wiggle_input_check_ok_default _ 1 false (by decide)]
  simp only [show nCols [[(1 : ℝ), 2]] = 2 from rfl,
    show [[(1 : ℝ), 2]].length = 1 from rfl, ha2, ha1, hd, hg,
    show minD [(1 : ℝ)] = 1 from rfl]
  norm_num [List.replicate_succ]

end Seispy
